import Mathlib

/-!
# Verification of the HTML-to-EPUB converter (`html_to_epub_converter.py`)

A shallow embedding of the converter's logic, translated function by function
from the Python source. Strings are modelled as `List Char` (Python `str` is a
sequence of Unicode code points, as is `List Char`); regular-expression digit
classes are modelled as ASCII digits (the directory names and style strings the
program handles are ASCII in the relevant positions); file bytes are `List Nat`.
Each definition's doc comment names the Python function and lines it embeds.
-/

/-- Python `\s` on the ASCII range (also used by `str.strip()`). -/
def isSpaceChar (c : Char) : Bool :=
  c == ' ' || c == '\t' || c == '\n' || c == '\r' || c == '\x0b' || c == '\x0c'

/-- Python `str.strip()`: drop whitespace from both ends. -/
def pyStrip (s : List Char) : List Char :=
  ((s.dropWhile isSpaceChar).reverse.dropWhile isSpaceChar).reverse

/-- `os.path.basename`: the part after the last `'/'`. -/
def pyBasename (p : List Char) : List Char :=
  (p.reverse.takeWhile (fun c => c != '/')).reverse

/-- The extension part of `os.path.splitext`, on a path's final component:
the suffix from the last `'.'`, unless every character before that dot (within
the final path component) is itself a dot, in which case there is no
extension (Python's leading-dot rule, so `".png"` has no extension). -/
def pyExtAux (base : List Char) : List Char :=
  let r := base.reverse
  let afterDot := r.takeWhile (fun c => c != '.')
  if afterDot.length = r.length then []
  else
    let beforeDot := r.drop (afterDot.length + 1)
    if beforeDot.all (fun c => c == '.') then [] else '.' :: afterDot.reverse

/-- The extension of `os.path.splitext` on a full path. -/
def pyExt (p : List Char) : List Char :=
  pyExtAux (pyBasename p)

/-- `str.lower()` on the ASCII range. -/
def lowerStr (s : List Char) : List Char :=
  s.map Char.toLower

/-- Python's substring test `needle in hay`: the needle occurs contiguously
somewhere in the hay (the empty needle always does). -/
def isSubstr (needle : List Char) : List Char → Bool
  | [] => needle.isEmpty
  | c :: rest => needle.isPrefixOf (c :: rest) || isSubstr needle rest

/-! ## Date Extractor (`extract_date_from_dirname`, lines 76-84) -/

/-- A parsed calendar date, standing for the `datetime.datetime` the code
builds (whose time fields are always zero here). -/
structure PDate where
  year : Nat
  month : Nat
  day : Nat
deriving DecidableEq

/-- `re` match of `\d{4}-\d{2}-\d{2}` anchored at the head of the list:
the ten matched characters, or `none`. -/
def matchDateAt (l : List Char) : Option (List Char) :=
  match l with
  | a :: b :: c :: d :: e :: f :: g :: h :: i :: j :: _ =>
    if a.isDigit && b.isDigit && c.isDigit && d.isDigit && e == '-' &&
       f.isDigit && g.isDigit && h == '-' && i.isDigit && j.isDigit then
      some [a, b, c, d, e, f, g, h, i, j]
    else
      none
  | _ => none

/-- `re.search(r'(\d{4}-\d{2}-\d{2})', s)`: the first position where the
pattern matches, scanning left to right. -/
def searchDate : List Char → Option (List Char)
  | [] => none
  | c :: rest =>
    match matchDateAt (c :: rest) with
    | some m => some m
    | none => searchDate rest

/-- Gregorian leap year, as `datetime` validates days. -/
def isLeap (y : Nat) : Bool :=
  y % 4 == 0 && (y % 100 != 0 || y % 400 == 0)

/-- Days in a month, as `datetime` validates them. -/
def daysInMonth (y m : Nat) : Nat :=
  if m == 2 then (if isLeap y then 29 else 28)
  else if m == 4 || m == 6 || m == 9 || m == 11 then 30
  else 31

/-- The numeric value of an ASCII digit. -/
def digitVal (c : Char) : Nat :=
  c.toNat - 48

/-- `datetime.datetime.strptime(s, '%Y-%m-%d')` on a ten-character match
`dddd-dd-dd`: `some` date when year, month and day form a valid calendar
date (year at least 1, month 1..12, day within the month), `none` when the
parse raises `ValueError`. -/
def parseDate (s : List Char) : Option PDate :=
  match s with
  | [y1, y2, y3, y4, _, m1, m2, _, d1, d2] =>
    let y := digitVal y1 * 1000 + digitVal y2 * 100 + digitVal y3 * 10 + digitVal y4
    let m := digitVal m1 * 10 + digitVal m2
    let d := digitVal d1 * 10 + digitVal d2
    if 1 ≤ y && 1 ≤ m && m ≤ 12 && 1 ≤ d && d ≤ daysInMonth y m then
      some ⟨y, m, d⟩
    else
      none
  | _ => none

/-- The fixed fallback date `2000-01-01` of lines 83-84. -/
def fallbackDate : PDate := ⟨2000, 1, 1⟩

/-- `HTMLtoEPUBConverter.extract_date_from_dirname` (lines 76-84): search the
directory name for the first `\d{4}-\d{2}-\d{2}` match; parse it; on no match
or a failing parse return the fallback date. Total: no error reaches the
caller. -/
def extract_date_from_dirname (dirname : List Char) : PDate :=
  match searchDate dirname with
  | some m => (parseDate m).getD fallbackDate
  | none => fallbackDate

/-! ## Directory Walker (`process_directory`, lines 251-268) -/

/-- One entry of `os.listdir(self.source_dir)`: its name, whether it is a
directory, and whether `index.html` exists at its top level. -/
structure DirEntry where
  name : List Char
  isDir : Bool
  hasIndex : Bool
deriving DecidableEq

/-- The filter of lines 257-262: directories, names not beginning with `'.'`,
containing `index.html`. -/
def keepEntry (e : DirEntry) : Bool :=
  e.isDir && !(".".toList.isPrefixOf e.name) && e.hasIndex

/-- The sort key of line 265, with the `datetime` value encoded so that `Nat`
order equals `datetime` order (month and day are two-digit, hence below 100). -/
def dateKey (e : DirEntry) : Nat :=
  (extract_date_from_dirname e.name).year * 10000 +
    (extract_date_from_dirname e.name).month * 100 +
    (extract_date_from_dirname e.name).day

/-- Lexicographic order on parsed dates: the order `datetime` comparison uses. -/
def dateLE (a b : PDate) : Prop :=
  a.year < b.year ∨ (a.year = b.year ∧ (a.month < b.month ∨
    (a.month = b.month ∧ a.day ≤ b.day)))

instance : DecidableRel dateLE := fun a b => by
  unfold dateLE; infer_instance

/-- `HTMLtoEPUBConverter.process_directory` (lines 251-268): filter the
listing, then `list.sort(key=...)` — a stable sort by the extracted date.
`insertionSort` with a total `≤` on the key is such a stable sort. -/
def process_directory (entries : List DirEntry) : List DirEntry :=
  (entries.filter keepEntry).insertionSort (fun a b => dateKey a ≤ dateKey b)

/-! ## Footer Stripper (`_remove_footer_elements`, lines 185-249) -/

/-- A paragraph element as the footer heuristics observe it: `raw` is
`str(p)` (the serialized markup, attributes included), `text` is
`p.get_text().strip()`, `hasImg` is whether `p.find('img')` finds an image. -/
structure Para where
  raw : List Char
  text : List Char
  hasImg : Bool
deriving DecidableEq

/-- `re.search(r'\[email[^\]]*\]', s)` as a Boolean: some occurrence of the
literal `"[email"` with a `']'` somewhere after it (the `[^\]]*` run cannot
cross a `']'`, so the search succeeds exactly then). -/
def hasBracketEmail : List Char → Bool
  | [] => false
  | c :: rest =>
    ("[email".toList.isPrefixOf (c :: rest) && ((c :: rest).drop 6).contains ']')
      || hasBracketEmail rest

/-- The `email_patterns` checks of lines 188-193 and 219-222, applied to
`str(p)`. -/
def emailFooter (raw : List Char) : Bool :=
  hasBracketEmail raw || isSubstr "邮箱".toList raw ||
  isSubstr "@".toList raw || isSubstr "__cf_email__".toList raw

/-- The `author_patterns` checks of lines 195-200 and 225-229, applied to the
paragraph's stripped text. -/
def authorFooter (txt : List Char) : Bool :=
  isSubstr "Buddhavamsa".toList txt || isSubstr "布达文萨".toList txt ||
  isSubstr "公众号".toList txt || isSubstr "关注".toList txt

/-- The full per-paragraph footer test of lines 215-238: email patterns on the
raw markup, author tokens in the text, image with under-3-character text, or a
styling fingerprint with under-30-character text. -/
def isFooterPara (p : Para) : Bool :=
  emailFooter p.raw || authorFooter p.text ||
  (p.hasImg && (pyStrip p.text).length < 3) ||
  ((isSubstr "color: rgb(34, 34, 34)".toList p.raw ||
    isSubstr "Helvetica Neue".toList p.raw) && (pyStrip p.text).length < 30)

/-- How many trailing paragraphs the loop of lines 211-245 marks for removal:
scanning the last up-to-5 paragraphs from the end, stopping at the first
non-matching one. -/
def footerSuffixLen (ps : List Para) : Nat :=
  ((ps.reverse.take 5).takeWhile isFooterPara).length

/-- `HTMLtoEPUBConverter._remove_footer_elements` (lines 185-249) at the level
of the container's paragraph list: fewer than 3 paragraphs returns unchanged
(lines 203-205); otherwise the marked trailing paragraphs are decomposed. -/
def _remove_footer_elements (ps : List Para) : List Para :=
  if ps.length < 3 then ps
  else ps.take (ps.length - footerSuffixLen ps)

/-! ## Style Normalizer (`_preserve_formatting`, lines 141-183) -/

/-- The tail of `re.search(prop + r':\s*([^;]+)', style)` once the literal
part has matched: greedy `\s*`, then at least one non-`';'` character, with
backtracking — if all the whitespace is followed by `';'` or the end, the
last whitespace character itself is the group. `none` when no match starts
here. -/
def propValue (rest : List Char) : Option (List Char) :=
  match rest.drop (rest.takeWhile isSpaceChar).length with
  | c :: t =>
    if c == ';' then
      match (rest.takeWhile isSpaceChar).getLast? with
      | some w => some [w]
      | none => none
    else some ((c :: t).takeWhile (fun x => x != ';'))
  | [] =>
    match (rest.takeWhile isSpaceChar).getLast? with
    | some w => some [w]
    | none => none

/-- `re.search(needle + r'\s*([^;]+)', style)`: try the literal `needle` at
every position left to right; at the first position where the whole pattern
matches, return the captured group. -/
def searchProp (needle : List Char) : List Char → Option (List Char)
  | [] => none
  | c :: rest =>
    if needle.isPrefixOf (c :: rest) then
      match propValue ((c :: rest).drop needle.length) with
      | some v => some v
      | none => searchProp needle rest
    else searchProp needle rest

/-- The `new_style` list built in lines 150-164: a `text-align` part when the
substring is present and the regex matches, a fixed `font-weight: bold` part
when both `'font-weight'` and `'bold'` occur in the style string, and a
`text-indent` part likewise, in that order. -/
def styleParts (style : List Char) : List (List Char) :=
  (if isSubstr "text-align".toList style then
     match searchProp ("text-align:".toList) style with
     | some v => ["text-align: ".toList ++ v]
     | none => []
   else []) ++
  (if isSubstr "font-weight".toList style && isSubstr "bold".toList style then
     ["font-weight: bold".toList]
   else []) ++
  (if isSubstr "text-indent".toList style then
     match searchProp ("text-indent:".toList) style with
     | some v => ["text-indent: ".toList ++ v]
     | none => []
   else [])

/-- Python `sep.join(parts)`. -/
def joinSep (sep : List Char) : List (List Char) → List Char
  | [] => []
  | [x] => x
  | x :: y :: rest => x ++ sep ++ joinSep sep (y :: rest)

/-- Lines 166-172: `'; '.join(new_style)` when something survived, otherwise
the style attribute is deleted (`none`). -/
def normalizeParaStyle (style : List Char) : Option (List Char) :=
  match styleParts style with
  | [] => none
  | p :: ps => some (joinSep "; ".toList (p :: ps))

/-- The fixed heading declaration of line 176. -/
def headingStyleFixed : List Char :=
  "text-align: center; font-weight: bold;".toList

/-- An element as `_preserve_formatting` touches it: a paragraph with an
optional `style` attribute, a heading (`h1`..`h6`, the `find_all` list of
line 175) with an optional `style` attribute, or anything else. -/
inductive FmtElem where
  | para (style : Option (List Char))
  | heading (level : Nat) (style : Option (List Char))
  | otherElem
deriving DecidableEq

/-- `HTMLtoEPUBConverter._preserve_formatting` (lines 141-183) at element
level: every paragraph's style is rewritten through the allowlist (a missing
attribute reads as `''`, line 149), every heading's style is overwritten with
the fixed declaration. The final `'</p><p'` → `'</p>\n<p'` replace of line 181
inserts whitespace between serialized paragraphs and touches no element. -/
def preserveFormatting (es : List FmtElem) : List FmtElem :=
  es.map fun e =>
    match e with
    | .para st => .para (normalizeParaStyle (st.getD []))
    | .heading l _ => .heading l (some headingStyleFixed)
    | .otherElem => .otherElem

/-- Splitting a declaration string on `';'` (observer for the claims, not
code of the program). -/
def splitSemi : List Char → List (List Char)
  | [] => [[]]
  | c :: rest =>
    if c = ';' then [] :: splitSemi rest
    else
      match splitSemi rest with
      | h :: t => (c :: h) :: t
      | [] => [[c]]

/-- The property name of one `';'`-separated declaration: the text before its
first `':'`, whitespace-trimmed; `none` when that is empty (observer for the
claims, not code of the program). -/
def declName1 (d : List Char) : Option (List Char) :=
  if (pyStrip (d.takeWhile (fun x => x != ':'))).isEmpty then none
  else some (pyStrip (d.takeWhile (fun x => x != ':')))

/-- Observer for the Style Normalizer claims: the property names of a CSS
declaration string — split on `';'`, each part's name, empty names dropped. -/
def declNames (s : List Char) : List (List Char) :=
  (splitSemi s).filterMap declName1

/-! ## Content Extractor (`clean_html_content`, lines 86-139) -/

/-- A parsed DOM node as BeautifulSoup holds it: an element with tag,
attributes and children, a text node (`NavigableString`), or a comment node
(`Comment`, whose string is the inner text without the `<!--`/`-->`
delimiters). A document is the root's child list. -/
inductive Node where
  | elem (tag : List Char) (attrs : List (List Char × List Char)) (children : List Node)
  | textNode (s : List Char)
  | commentNode (s : List Char)

/-- The unwanted tags of line 91. -/
def unwantedTag (t : List Char) : Bool :=
  t == "script".toList || t == "style".toList || t == "meta".toList ||
  t == "link".toList || t == "noscript".toList || t == "iframe".toList

/-- Lines 91-92: `find_all` the unwanted tags and `decompose()` each — every
element of an unwanted kind, anywhere in the tree, is removed with its
subtree. -/
def removeUnwantedTags : List Node → List Node
  | [] => []
  | .elem t a cs :: rest =>
    if unwantedTag t then removeUnwantedTags rest
    else .elem t a (removeUnwantedTags cs) :: removeUnwantedTags rest
  | .textNode s :: rest => .textNode s :: removeUnwantedTags rest
  | .commentNode s :: rest => .commentNode s :: removeUnwantedTags rest

/-- The string filter of line 95: `isinstance(text, str)` holds of every
`NavigableString` and of every `Comment` (a `Comment`'s string is the inner
text), and the node is extracted when its stripped string starts with
`'<!--'`. -/
def stripStartsCommentMark (s : List Char) : Bool :=
  "<!--".toList.isPrefixOf (pyStrip s)

/-- Lines 95-96: extract every text or comment node whose stripped string
starts with `'<!--'`. -/
def removeCommentStrings : List Node → List Node
  | [] => []
  | .elem t a cs :: rest => .elem t a (removeCommentStrings cs) :: removeCommentStrings rest
  | .textNode s :: rest =>
    if stripStartsCommentMark s then removeCommentStrings rest
    else .textNode s :: removeCommentStrings rest
  | .commentNode s :: rest =>
    if stripStartsCommentMark s then removeCommentStrings rest
    else .commentNode s :: removeCommentStrings rest

/-- The whole cleaning step of lines 90-96: unwanted tags decomposed, then
the string filter. -/
def cleanUnwanted (doc : List Node) : List Node :=
  removeCommentStrings (removeUnwantedTags doc)

/-- `get_text()` of a node list: the concatenated text-node strings in
document order (comments are not text). -/
def getTextList : List Node → List Char
  | [] => []
  | .elem _ _ cs :: rest => getTextList cs ++ getTextList rest
  | .textNode s :: rest => s ++ getTextList rest
  | .commentNode _ :: rest => getTextList rest

/-- `soup.find(tag)`-style search: the first element in document order
(preorder, descendants included) satisfying `p`. -/
def findElem (p : List Char → List (List Char × List Char) → Bool) :
    List Node → Option Node
  | [] => none
  | .elem t a cs :: rest =>
    if p t a then some (.elem t a cs)
    else
      match findElem p cs with
      | some n => some n
      | none => findElem p rest
  | _ :: rest => findElem p rest

/-- An attribute's value. -/
def attrLookup (k : List Char) (attrs : List (List Char × List Char)) :
    Option (List Char) :=
  (attrs.find? (fun kv => kv.1 == k)).map (fun kv => kv.2)

/-- Whitespace-split of a `class` attribute value, as BeautifulSoup
multi-valued class matching splits it. -/
def splitClasses (s : List Char) : List (List Char) :=
  (s.splitOnP (fun c => isSpaceChar c)).filter (fun w => !w.isEmpty)

/-- Line 105: `soup.find('div', id='js_content')`. -/
def isJsContentDiv (t : List Char) (a : List (List Char × List Char)) : Bool :=
  t == "div".toList && attrLookup "id".toList a == some "js_content".toList

/-- Line 107: `soup.find('div', class_='rich_media_content')` — a div one of
whose classes equals the sought name. -/
def isRichMediaDiv (t : List Char) (a : List (List Char × List Char)) : Bool :=
  t == "div".toList &&
    (match attrLookup "class".toList a with
     | some cls => (splitClasses cls).contains "rich_media_content".toList
     | none => false)

/-- Lines 104-107: locate the main content container, by id first, by class
as fallback. -/
def locateContent (doc : List Node) : Option Node :=
  match findElem isJsContentDiv doc with
  | some n => some n
  | none => findElem isRichMediaDiv doc

/-- The title of lines 99-102: the first `h1`'s text, stripped; `""` if none. -/
def extractTitle (doc : List Node) : List Char :=
  match findElem (fun t _ => t == "h1".toList) doc with
  | some (.elem _ _ cs) => pyStrip (getTextList cs)
  | _ => []

/-- The literal placeholder markup of line 110. -/
def placeholderMarkup : List Char :=
  "<p>Content not found</p>".toList

/-- What `clean_html_content` returns as its second component: either a
literal markup string (the not-found branch, line 110), or the located
container to be processed further (lines 112-139 — the footer stripping,
style normalizing and image rewriting of that copy are embedded by
`_remove_footer_elements`, `preserveFormatting` and the image pipeline
below, each at its own level). -/
inductive BodyOut where
  | markup (s : List Char)
  | located (container : Node)

/-- `HTMLtoEPUBConverter.clean_html_content` (lines 86-110): clean the tree,
extract the title, locate the container; when no container exists return the
title with the literal `"<p>Content not found</p>"` markup. -/
def cleanHtmlContent (doc : List Node) : List Char × BodyOut :=
  let d := cleanUnwanted doc
  let title := extractTitle d
  match locateContent d with
  | none => (title, .markup placeholderMarkup)
  | some c => (title, .located c)

/-! ## Image handling (lines 126-137 and 312-349) -/

/-- An `<img>` element: its attribute dictionary in order. -/
structure ImgTag where
  attrs : List (List Char × List Char)
deriving DecidableEq

/-- `img.get(k, '')`. -/
def attrGet (k : List Char) (a : List (List Char × List Char)) : List Char :=
  ((a.find? (fun kv => kv.1 == k)).map (fun kv => kv.2)).getD []

/-- `img[k] = v`: overwrite in place, or append when the key is new. -/
def attrSet (k v : List Char) (a : List (List Char × List Char)) :
    List (List Char × List Char) :=
  if a.any (fun kv => kv.1 == k) then
    a.map (fun kv => if kv.1 == k then (k, v) else kv)
  else a ++ [(k, v)]

def srcKey : List Char := "src".toList

def altKey : List Char := "alt".toList

/-- The per-image step of lines 126-137: when `src` starts with
`'./assets/'`, record the path and rewrite `src` to the base filename; in
every case drop all attributes other than `src` and `alt`. Returns the
rewritten image and the recorded path, if any. -/
def cleanImg (img : ImgTag) : ImgTag × Option (List Char) :=
  if "./assets/".toList.isPrefixOf (attrGet srcKey img.attrs) then
    (⟨(attrSet srcKey (pyBasename (attrGet srcKey img.attrs)) img.attrs).filter
        (fun kv => kv.1 == srcKey || kv.1 == altKey)⟩,
      some (attrGet srcKey img.attrs))
  else
    (⟨img.attrs.filter (fun kv => kv.1 == srcKey || kv.1 == altKey)⟩, none)

/-- Lines 126-137 over the document's images in order, also collecting
`self.image_files_to_process` in append order. -/
def cleanImgs : List ImgTag → List ImgTag × List (List Char)
  | [] => ([], [])
  | i :: rest =>
    let (i1, r) := cleanImg i
    let (is, ps) := cleanImgs rest
    (i1 :: is, match r with | some p => p :: ps | none => ps)

/-- The extension dispatch of lines 319-329. -/
def mediaTypeFor (ext : List Char) : List Char :=
  if ext == ".jpg".toList || ext == ".jpeg".toList then "image/jpeg".toList
  else if ext == ".png".toList then "image/png".toList
  else if ext == ".gif".toList then "image/gif".toList
  else if ext == ".svg".toList then "image/svg+xml".toList
  else "image/jpeg".toList

/-- An embedded `epub.EpubItem` image resource (lines 337-342). -/
structure EpubResource where
  uid : List Char
  fileName : List Char
  mediaType : List Char
  content : List Nat
deriving DecidableEq

/-- The article directory as the filesystem presents it to lines 313-317:
whether the `assets` subdirectory exists, and the files under the directory
keyed by the relative path the document referenced (the code joins that
relative path onto the directory path; the extension is unchanged by the
join). -/
structure ArticleDir where
  assetsDirExists : Bool
  files : List (List Char × List Nat)

/-- `os.path.exists` plus `open(...).read()` for a referenced relative path. -/
def lookupFile (files : List (List Char × List Nat)) (p : List Char) :
    Option (List Nat) :=
  (files.find? (fun e => e.1 == p)).map (fun e => e.2)

/-- The loop of lines 315-349 over `self.image_files_to_process`: a missing
file is skipped silently; an existing one is embedded as a resource (media
type from the lower-cased extension) and every occurrence of
`src="<basename>"` in the chapter content is textually replaced by
`src="images/<basename>"` — at this embedding's granularity, every image
whose `src` equals the base filename is retargeted (serialized attribute
values are quote-escaped, so the textual replace can only hit `src`
attributes). -/
def processPendingImages (chapterId : Nat) (files : List (List Char × List Nat)) :
    List (List Char) → List ImgTag → List ImgTag × List EpubResource
  | [], imgs => (imgs, [])
  | p :: rest, imgs =>
    match lookupFile files p with
    | none => processPendingImages chapterId files rest imgs
    | some bytes =>
      let b := pyBasename p
      let imgs1 := imgs.map fun im =>
        if attrGet srcKey im.attrs == b then
          ⟨attrSet srcKey ("images/".toList ++ b) im.attrs⟩
        else im
      let found := processPendingImages chapterId files rest imgs1
      (found.1,
        ⟨"image_".toList ++ (Nat.repr chapterId).toList ++ "_".toList ++ b,
         "images/".toList ++ b,
         mediaTypeFor (lowerStr (pyExt p)),
         bytes⟩ :: found.2)

/-- Lines 313-349: the whole per-chapter image step runs only when the
`assets` subdirectory exists. -/
def processChapterImages (chapterId : Nat) (d : ArticleDir)
    (pending : List (List Char)) (imgs : List ImgTag) :
    List ImgTag × List EpubResource :=
  if d.assetsDirExists then processPendingImages chapterId d.files pending imgs
  else (imgs, [])

/-- The composed image round trip of one chapter: the cleaning pass of
lines 126-137 followed by the embedding pass of lines 313-349. -/
def imagePipeline (chapterId : Nat) (d : ArticleDir) (raws : List ImgTag) :
    List ImgTag × List EpubResource :=
  let cleanedAll := cleanImgs raws
  processChapterImages chapterId d cleanedAll.2 cleanedAll.1

/-! ## Book Assembler (`process_html_file` and `create_epub`, lines 270-417) -/

/-- An article directory as `create_epub`'s loop sees it: its name, whether
`index.html` is (still) present at processing time (line 275), and its parsed
document. -/
structure Article where
  name : List Char
  hasIndex : Bool
  doc : List Node

/-- A built chapter document (lines 292-309): title (falling back to the
directory name, line 289-290), the 1-based ordinal, the re-extracted date
line of lines 300-301 (the raw matched substring, or empty), and the cleaned
body. -/
structure ChapterDoc where
  title : List Char
  ordinal : Nat
  dateLine : List Char
  body : BodyOut

/-- Lines 284-309 of `process_html_file`, given the already-read document. -/
def mkChapter (chapterId : Nat) (a : Article) : ChapterDoc :=
  let cleaned := cleanHtmlContent a.doc
  let title := if cleaned.1.isEmpty then a.name else cleaned.1
  ⟨title, chapterId, (searchDate a.name).getD [], cleaned.2⟩

/-- `HTMLtoEPUBConverter.process_html_file` (lines 270-351): `None` exactly
when `index.html` is missing (lines 275-277); otherwise a chapter, whatever
the document's content. -/
def processHtmlFile (chapterId : Nat) (a : Article) : Option ChapterDoc :=
  if a.hasIndex then some (mkChapter chapterId a) else none

/-- The chapter-building loop of lines 383-395: `enumerate` counts every
directory (`i` is the 0-based index, the chapter id is `i + 1`), a `None`
result is skipped, and processing always continues with the next directory. -/
def buildChapters (i : Nat) : List Article → List ChapterDoc
  | [] => []
  | a :: rest =>
    match processHtmlFile (i + 1) a with
    | some c => c :: buildChapters (i + 1) rest
    | none => buildChapters (i + 1) rest

/-- An entry of `self.spine` as handed to the packaging library: the `'nav'`
marker placed at construction (line 29), the cover page, the TOC page, or the
chapter with the given 1-based ordinal. -/
inductive SpineItem where
  | navDoc
  | coverPage
  | tocPage
  | chapterItem (i : Nat)
deriving DecidableEq

/-- An entry of `self.toc`, the navigation list (line 30, 390, 404). -/
inductive NavLink where
  | tocLink
  | chapterLink (i : Nat)
deriving DecidableEq

/-- Python `list.insert(n, x)`: insert before index `n`, clamped to the end. -/
def pyInsert {α : Type} : Nat → α → List α → List α
  | 0, x, l => x :: l
  | _ + 1, x, [] => [x]
  | n + 1, x, h :: t => h :: pyInsert n x t

/-- The spine `create_epub` hands to the packaging library, given the
chapters its loop built: `['nav']` at construction (line 29), the cover
appended (line 376), one entry per successful chapter appended in loop order
(line 389), then `spine.insert(1, toc_page)` (line 401). -/
def createEpubSpine (chs : List ChapterDoc) : List SpineItem :=
  pyInsert 1 .tocPage
    (([SpineItem.navDoc] ++ [SpineItem.coverPage]) ++
      chs.map (fun c => .chapterItem c.ordinal))

/-- The navigation list `create_epub` hands over: `[]` at construction
(line 30), one link per successful chapter appended in loop order (line 390),
then `toc.insert(0, toc_link)` (line 404). -/
def createEpubNav (chs : List ChapterDoc) : List NavLink :=
  pyInsert 0 .tocLink (chs.map (fun c => .chapterLink c.ordinal))

/-! ## Helper lemmas -/

theorem searchDate_eq_none_of_all (s : List Char)
    (h : ∀ i, matchDateAt (s.drop i) = none) : searchDate s = none := by
  induction s with
  | nil => rfl
  | cons c rest ih =>
    have h0 := h 0
    simp only [List.drop_zero] at h0
    simp only [searchDate, h0]
    exact ih fun i => by simpa using h (i + 1)

theorem searchDate_eq_of_first (s : List Char) (i : Nat) (m : List Char)
    (hbefore : ∀ j, j < i → matchDateAt (s.drop j) = none)
    (hat : matchDateAt (s.drop i) = some m) : searchDate s = some m := by
  induction s generalizing i with
  | nil => simp [matchDateAt] at hat
  | cons c rest ih =>
    cases i with
    | zero =>
      simp only [List.drop_zero] at hat
      simp [searchDate, hat]
    | succ i =>
      have h0 := hbefore 0 (Nat.succ_pos i)
      simp only [List.drop_zero] at h0
      simp only [searchDate, h0]
      exact ih i (fun j hj => by simpa using hbefore (j + 1) (Nat.succ_lt_succ hj))
        (by simpa using hat)

/-! ## Claim theorems -/

/-- C1, counterexample: with one article directory the spine handed to the
packaging library is `[nav, TOC page, cover, chapter_1]`, not
`[cover, TOC page, chapter_1]` as the claim states — `self.spine` starts as
`['nav']` and `spine.insert(1, toc_page)` places the TOC page before the
cover, despite the code's own comment "Insert after cover, before chapters". -/
theorem C1_spine_claim_counterexample :
    createEpubSpine (buildChapters 0 [⟨"a".toList, true, []⟩]) =
      [SpineItem.navDoc, .tocPage, .coverPage, .chapterItem 1] ∧
    createEpubSpine (buildChapters 0 [⟨"a".toList, true, []⟩]) ≠
      [SpineItem.coverPage, .tocPage, .chapterItem 1] := by
  exact ⟨rfl, by decide⟩

/-- C1, amended: for every run of the assembler the final spine is
`[nav document, TOC page, cover, chapter_1 .. chapter_n]` — the TOC page sits
between the nav document and the cover — with one chapter entry per
successfully processed article in loop (sorted-date) order, and the
navigation list is the TOC-page link followed by one link per chapter in
that same order. -/
theorem C1_spine_nav_amended : ∀ arts : List Article,
    createEpubSpine (buildChapters 0 arts) =
      SpineItem.navDoc :: SpineItem.tocPage :: SpineItem.coverPage ::
        (buildChapters 0 arts).map (fun c => SpineItem.chapterItem c.ordinal) ∧
    createEpubNav (buildChapters 0 arts) =
      NavLink.tocLink ::
        (buildChapters 0 arts).map (fun c => NavLink.chapterLink c.ordinal) :=
  fun _ => ⟨rfl, rfl⟩

/-- C2, counterexample: `"2024-13-05x2023-04-06"` contains the substring
`"2023-04-06"`, which matches the date pattern and parses as a valid date,
yet `extract_date_from_dirname` returns the fallback `2000-01-01`: the code
only ever parses the first regex match (`"2024-13-05"`, an invalid month),
never a later one. -/
theorem C2_first_match_counterexample :
    matchDateAt (("2024-13-05x2023-04-06".toList).drop 11) =
      some ("2023-04-06".toList) ∧
    parseDate ("2023-04-06".toList) = some ⟨2023, 4, 6⟩ ∧
    extract_date_from_dirname ("2024-13-05x2023-04-06".toList) = fallbackDate ∧
    fallbackDate ≠ (⟨2023, 4, 6⟩ : PDate) := by
  refine ⟨by decide, by decide, ?_, by decide⟩
  decide

/-- C2, amended: `extract_date_from_dirname` returns the date parsed from
the FIRST substring matching `\d{4}-\d{2}-\d{2}` when that first match
parses as a valid calendar date; when no substring matches, or the first
match fails to parse (invalid month/day, year 0), it returns the fixed
fallback `2000-01-01`; being a total function, it never raises. -/
theorem C2_first_match_amended : ∀ s : List Char,
    (∀ i m, (∀ j, j < i → matchDateAt (s.drop j) = none) →
      matchDateAt (s.drop i) = some m →
      extract_date_from_dirname s = (parseDate m).getD fallbackDate) ∧
    ((∀ i, matchDateAt (s.drop i) = none) →
      extract_date_from_dirname s = fallbackDate) := by
  intro s
  constructor
  · intro i m hb ha
    unfold extract_date_from_dirname
    rw [searchDate_eq_of_first s i m hb ha]
  · intro h
    unfold extract_date_from_dirname
    rw [searchDate_eq_none_of_all s h]

/-- C2, witness: the amended theorem applied at `"blog-2024-03-01"`, whose
first match is at position 5 and parses to 2024-03-01. -/
theorem C2_first_match_witness :
    extract_date_from_dirname ("blog-2024-03-01".toList) =
      (parseDate ("2024-03-01".toList)).getD fallbackDate :=
  (C2_first_match_amended ("blog-2024-03-01".toList)).1 5 ("2024-03-01".toList)
    (by decide) (by decide)

theorem takeWhile_stop {α : Type} (p : α → Bool) (l : List α) (d : α)
    (h : (l.takeWhile p).length < l.length) :
    p (l.getD (l.takeWhile p).length d) = false := by
  induction l with
  | nil => simp at h
  | cons a t ih =>
    by_cases hp : p a = true
    · simp only [List.takeWhile_cons, hp, if_true, List.length_cons] at h ⊢
      rw [List.getD_cons_succ]
      exact ih (by omega)
    · simp only [List.takeWhile_cons, hp, if_false, List.length_nil, List.getD_cons_zero]
      simpa using hp

/-- A default paragraph (only ever read at in-bounds indices). -/
def defaultPara : Para := ⟨[], [], false⟩

/-- A plain content paragraph, matching none of the footer heuristics. -/
def paraPlain : Para :=
  ⟨"<p>hello world text</p>".toList, "hello world text".toList, false⟩

/-- A paragraph whose raw markup contains `'@'`: the email heuristic fires. -/
def paraEmail : Para := ⟨"<p>@</p>".toList, "@".toList, false⟩

/-- How many paragraphs an invocation observably removed. -/
def removedCount (ps : List Para) : Nat :=
  ps.length - (_remove_footer_elements ps).length

/-- The property claim C3 states of an invocation on a container's paragraph
list: at most 5 removed, the removal a contiguous suffix (the output is the
corresponding prefix, everything before it intact), every removed paragraph
matching the heuristics, and — when the scan stopped short of the 5-cap and
of the list's head — the first kept paragraph from the end matching none. -/
def footerClaimProp (ps : List Para) : Prop :=
  removedCount ps ≤ 5 ∧
  _remove_footer_elements ps = ps.take (ps.length - removedCount ps) ∧
  (∀ p ∈ ps.drop (ps.length - removedCount ps), isFooterPara p = true) ∧
  (removedCount ps < 5 → removedCount ps < ps.length →
    isFooterPara (ps.getD (ps.length - removedCount ps - 1) defaultPara) = false)

/-- C3, counterexample: a container of two paragraphs whose last matches the
heuristics (`'@'` in its markup). The claim's backward scan stops only at a
non-matching paragraph, so it would remove the last one; the code's
fewer-than-3-paragraphs guard (lines 204-205) removes nothing, so the
claimed property fails on this container. -/
theorem C3_stop_claim_counterexample : ¬ footerClaimProp [paraPlain, paraEmail] := by
  intro h
  exact absurd (h.2.2.2 (by decide) (by decide)) (by decide)

/-- C3, amended: for every content container holding at least 3 paragraphs,
the Footer Stripper removes at most 5 paragraphs, all of them a contiguous
suffix, and scanning backward it stops at the first paragraph matching none
of the heuristics (or at the 5-paragraph cap), leaving that paragraph and
every earlier one intact. -/
theorem C3_footer_amended : ∀ ps : List Para, 3 ≤ ps.length → footerClaimProp ps := by
  intro ps h3
  have hguard : ¬ ps.length < 3 := by omega
  have hout : _remove_footer_elements ps = ps.take (ps.length - footerSuffixLen ps) := by
    unfold _remove_footer_elements
    simp [hguard]
  have hr5len : (ps.reverse.take 5).length = min 5 ps.length := by
    simp [List.length_take]
  have htwtake : List.takeWhile isFooterPara (ps.reverse.take 5) =
      List.take (footerSuffixLen ps) (ps.reverse.take 5) :=
    List.prefix_iff_eq_take.mp (List.takeWhile_prefix _)
  have hfsl5 : footerSuffixLen ps ≤ min 5 ps.length := by
    have := (List.takeWhile_prefix (l := ps.reverse.take 5) isFooterPara).length_le
    unfold footerSuffixLen
    omega
  have hfsln : footerSuffixLen ps ≤ ps.length := le_trans hfsl5 (Nat.min_le_right _ _)
  have hlenout : (_remove_footer_elements ps).length = ps.length - footerSuffixLen ps := by
    rw [hout, List.length_take]
    omega
  have hk : removedCount ps = footerSuffixLen ps := by
    unfold removedCount
    rw [hlenout]
    omega
  have hdrop : ps.drop (ps.length - footerSuffixLen ps) =
      (List.take (footerSuffixLen ps) ps.reverse).reverse := by
    have h := List.reverse_take (l := ps.reverse) (n := footerSuffixLen ps)
    rw [List.reverse_reverse, List.length_reverse] at h
    exact h.symm
  have htake55 : List.take (footerSuffixLen ps) ps.reverse =
      List.take (footerSuffixLen ps) (ps.reverse.take 5) := by
    rw [List.take_take]
    congr 1
    omega
  refine ⟨by omega, by rw [hk]; exact hout, ?_, ?_⟩
  · intro p hp
    rw [hk, hdrop, List.mem_reverse, htake55, ← htwtake] at hp
    exact List.mem_takeWhile_imp hp
  · rw [hk]
    intro h5 hn
    have hstop := takeWhile_stop isFooterPara (ps.reverse.take 5) defaultPara
      (by
        have hfr : footerSuffixLen ps =
            (List.takeWhile isFooterPara (ps.reverse.take 5)).length := rfl
        rw [← hfr, hr5len]
        omega)
    have hidx : ((ps.reverse.take 5).takeWhile isFooterPara).length = footerSuffixLen ps := rfl
    rw [hidx] at hstop
    have hgd1 : (ps.reverse.take 5).getD (footerSuffixLen ps) defaultPara =
        ps.reverse.getD (footerSuffixLen ps) defaultPara := by
      rw [List.getD_eq_getD_get?, List.getD_eq_getD_get?, List.get?_eq_getElem?,
        List.get?_eq_getElem?, List.getElem?_take]
      simp [h5]
    have hgd2 : ps.reverse.getD (footerSuffixLen ps) defaultPara =
        ps.getD (ps.length - 1 - footerSuffixLen ps) defaultPara := by
      rw [List.getD_eq_getD_get?, List.getD_eq_getD_get?, List.get?_eq_getElem?,
        List.get?_eq_getElem?, List.getElem?_reverse (by omega)]
    rw [hgd1, hgd2] at hstop
    have : ps.length - footerSuffixLen ps - 1 = ps.length - 1 - footerSuffixLen ps := by
      omega
    rw [this]
    exact hstop

/-- C3, witness: the amended theorem at a concrete 3-paragraph container. -/
theorem C3_footer_amended_witness : footerClaimProp [paraPlain, paraPlain, paraEmail] :=
  C3_footer_amended [paraPlain, paraPlain, paraEmail] (by decide)

/-- C4: a content container holding fewer than 3 paragraph elements is left
entirely unchanged by footer stripping (lines 203-205), whatever its
paragraphs contain. -/
theorem C4_small_container_skipped :
    ∀ ps : List Para, ps.length < 3 → _remove_footer_elements ps = ps := by
  intro ps h
  unfold _remove_footer_elements
  simp [h]

/-- C4, witness: a 2-paragraph container, one paragraph matching a footer
pattern, is retained unchanged. -/
theorem C4_small_container_witness :
    _remove_footer_elements [paraPlain, paraEmail] = [paraPlain, paraEmail] ∧
    isFooterPara paraEmail = true :=
  ⟨C4_small_container_skipped [paraPlain, paraEmail] (by decide), by decide⟩

theorem filter_orderedInsert_eq {α : Type} (key : α → Nat) (k : Nat) (x : α)
    (l : List α) (hx : key x = k) :
    (l.orderedInsert (fun a b => key a ≤ key b) x).filter (fun e => key e == k) =
      x :: l.filter (fun e => key e == k) := by
  subst hx
  induction l with
  | nil => simp [List.orderedInsert, List.filter]
  | cons b t ih =>
    by_cases h : key x ≤ key b
    · simp [List.orderedInsert, h, List.filter_cons]
    · have hb : ¬ key b = key x := by omega
      simp [List.orderedInsert, h, List.filter_cons, hb, ih]

theorem filter_orderedInsert_ne {α : Type} (key : α → Nat) (k : Nat) (x : α)
    (l : List α) (hx : key x ≠ k) :
    (l.orderedInsert (fun a b => key a ≤ key b) x).filter (fun e => key e == k) =
      l.filter (fun e => key e == k) := by
  induction l with
  | nil => simp [List.orderedInsert, List.filter_cons, List.filter_nil, hx]
  | cons b t ih =>
    by_cases h : key x ≤ key b
    · simp [List.orderedInsert, h, List.filter_cons, hx]
    · simp only [List.orderedInsert, if_neg h, List.filter_cons, ih]

theorem filter_insertionSort_key {α : Type} (key : α → Nat) (k : Nat) (l : List α) :
    ((l.insertionSort (fun a b => key a ≤ key b)).filter (fun e => key e == k)) =
      l.filter (fun e => key e == k) := by
  induction l with
  | nil => rfl
  | cons a t ih =>
    simp only [List.insertionSort]
    by_cases h : key a = k
    · rw [filter_orderedInsert_eq key k a _ h, ih, List.filter_cons]
      simp [h]
    · rw [filter_orderedInsert_ne key k a _ h, ih, List.filter_cons]
      simp [h]

theorem daysInMonth_le (y m : Nat) : daysInMonth y m ≤ 31 := by
  unfold daysInMonth
  split
  · split <;> omega
  · split <;> omega

theorem parseDate_bounds (s : List Char) (d : PDate) (h : parseDate s = some d) :
    1 ≤ d.month ∧ d.month ≤ 12 ∧ 1 ≤ d.day ∧ d.day ≤ 31 := by
  unfold parseDate at h
  split at h
  next y1 y2 y3 y4 c5 m1 m2 c8 d1 d2 =>
    dsimp only at h
    split at h
    next hcond =>
      simp only [Bool.and_eq_true, decide_eq_true_eq] at hcond
      cases h
      refine ⟨hcond.1.1.1.2, hcond.1.1.2, hcond.1.2, ?_⟩
      exact le_trans hcond.2 (daysInMonth_le _ _)
    next => exact absurd h (by simp)
  next => exact absurd h (by simp)

theorem extract_date_bounds (s : List Char) :
    (extract_date_from_dirname s).month ≤ 12 ∧ (extract_date_from_dirname s).day ≤ 31 := by
  have h : extract_date_from_dirname s = fallbackDate ∨
      ∃ m d, parseDate m = some d ∧ extract_date_from_dirname s = d := by
    unfold extract_date_from_dirname
    cases searchDate s with
    | none => exact Or.inl rfl
    | some m =>
      cases hp : parseDate m with
      | none => exact Or.inl (by simp [hp])
      | some d => exact Or.inr ⟨m, d, hp, by simp [hp]⟩
  rcases h with h | ⟨m, d, hp, h⟩
  · rw [h]
    exact ⟨by decide, by decide⟩
  · rw [h]
    have hb := parseDate_bounds m d hp
    exact ⟨hb.2.1, hb.2.2.2⟩

/-- C9: the Directory Walker returns exactly the non-hidden immediate
subdirectories containing `index.html` (a permutation of the filtered
listing), sorted non-decreasingly by the Date Extractor's output
(lexicographic `datetime` order), and stably: for every key value, the
subsequence of entries with that extracted date equals that of the filtered
listing, so equal (or fallback) dates keep their original enumeration order. -/
theorem C9_walker_sorted_stable : ∀ entries : List DirEntry,
    (process_directory entries).Perm (entries.filter keepEntry) ∧
    List.Pairwise (fun a b =>
      dateLE (extract_date_from_dirname a.name) (extract_date_from_dirname b.name))
      (process_directory entries) ∧
    (∀ k : Nat, (process_directory entries).filter (fun e => dateKey e == k) =
      (entries.filter keepEntry).filter (fun e => dateKey e == k)) := by
  intro entries
  refine ⟨List.perm_insertionSort _ _, ?_, fun k => filter_insertionSort_key dateKey k _⟩
  letI : IsTotal DirEntry (fun a b => dateKey a ≤ dateKey b) :=
    ⟨fun a b => Nat.le_total _ _⟩
  letI : IsTrans DirEntry (fun a b => dateKey a ≤ dateKey b) :=
    ⟨fun _ _ _ => Nat.le_trans⟩
  have hs := List.sorted_insertionSort (fun a b => dateKey a ≤ dateKey b)
    (entries.filter keepEntry)
  refine hs.imp ?_
  intro a b hab
  have ha := extract_date_bounds a.name
  have hb := extract_date_bounds b.name
  unfold dateKey at hab
  unfold dateLE
  omega

theorem find?_filter_eq {α : Type} (p q : α → Bool) (l : List α)
    (h : ∀ x, p x = true → q x = true) :
    (l.filter q).find? p = l.find? p := by
  induction l with
  | nil => rfl
  | cons a t ih =>
    by_cases hq : q a = true
    · rw [List.filter_cons, if_pos hq]
      by_cases hp : p a = true
      · rw [List.find?_cons_of_pos _ hp, List.find?_cons_of_pos _ hp]
      · rw [List.find?_cons_of_neg _ (by simp [hp]),
          List.find?_cons_of_neg _ (by simp [hp]), ih]
    · rw [List.filter_cons, if_neg hq]
      have hp : ¬ p a = true := fun hpa => hq (h a hpa)
      rw [List.find?_cons_of_neg _ (by simp [hp]), ih]

theorem cleanImgs_fst (imgs : List ImgTag) :
    (cleanImgs imgs).1 = imgs.map (fun i => (cleanImg i).1) := by
  induction imgs with
  | nil => rfl
  | cons i rest ih => simp [cleanImgs, ih]

/-- C8: an ordinary comment node survives the cleaning step while the
unwanted-tag removal works — the filter of lines 95-96 tests
`text.strip().startswith('<!--')`, and a `Comment`'s string is the inner
text without the `<!--` delimiters, so `" hello "` does not match and the
comment stays in the cleaned tree, contradicting the code's own
`# Remove comments` intent. -/
theorem C8_comment_survives_cleaning :
    cleanUnwanted [Node.elem "div".toList [] [Node.commentNode " hello ".toList],
      Node.elem "script".toList [] []] =
      [Node.elem "div".toList [] [Node.commentNode " hello ".toList]] := by
  have h1 : unwantedTag ['d', 'i', 'v'] = false := by decide
  have h2 : unwantedTag ['s', 'c', 'r', 'i', 'p', 't'] = true := by decide
  have h3 : stripStartsCommentMark [' ', 'h', 'e', 'l', 'l', 'o', ' '] = false := by decide
  simp [cleanUnwanted, removeUnwantedTags, removeCommentStrings, h1, h2, h3]

/-- C7: when neither content container exists in the cleaned document,
`clean_html_content` returns the extracted title paired with the literal
`"<p>Content not found</p>"` placeholder markup rather than raising, and the
assembler's loop still builds a chapter for such an article and carries on
with the remaining ones. -/
theorem C7_content_not_found_soft :
    (∀ doc : List Node, locateContent (cleanUnwanted doc) = none →
      cleanHtmlContent doc =
        (extractTitle (cleanUnwanted doc), BodyOut.markup placeholderMarkup)) ∧
    (∀ (i : Nat) (a : Article) (rest : List Article), a.hasIndex = true →
      buildChapters i (a :: rest) = mkChapter (i + 1) a :: buildChapters (i + 1) rest) := by
  constructor
  · intro doc h
    simp only [cleanHtmlContent, h]
  · intro i a rest h
    simp only [buildChapters, processHtmlFile, h, if_true]

/-- C7, witness: a document holding only a paragraph has no content
container; the theorem applied there yields the placeholder result. -/
theorem C7_content_not_found_witness :
    cleanHtmlContent [Node.elem "p".toList [] [Node.textNode "x".toList]] =
      (extractTitle (cleanUnwanted [Node.elem "p".toList [] [Node.textNode "x".toList]]),
        BodyOut.markup placeholderMarkup) := by
  apply C7_content_not_found_soft.1
  have h1 : unwantedTag ['p'] = false := by decide
  have h2 : stripStartsCommentMark ['x'] = false := by decide
  have h3 : isJsContentDiv ['p'] [] = false := by decide
  have h4 : isRichMediaDiv ['p'] [] = false := by decide
  simp [cleanUnwanted, removeUnwantedTags, removeCommentStrings, locateContent,
    findElem, h1, h2, h3, h4]

/-- C10: in the cleaned output every `img` keeps only its `src` and `alt`
attributes; an `img` whose `src` does not begin with `./assets/` keeps its
`src` value unchanged and contributes nothing to the pending-image list
(which consists exactly of the recorded `./assets/` paths, in document
order). -/
theorem C10_img_attribute_invariant :
    (∀ imgs : List ImgTag, ∀ o ∈ (cleanImgs imgs).1, ∀ kv ∈ o.attrs,
      kv.1 = srcKey ∨ kv.1 = altKey) ∧
    (∀ img : ImgTag, "./assets/".toList.isPrefixOf (attrGet srcKey img.attrs) = false →
      attrGet srcKey (cleanImg img).1.attrs = attrGet srcKey img.attrs ∧
      (cleanImg img).2 = none) ∧
    (∀ imgs : List ImgTag, (cleanImgs imgs).2 = imgs.filterMap (fun i => (cleanImg i).2)) := by
  refine ⟨?_, ?_, ?_⟩
  · intro imgs o ho kv hkv
    rw [cleanImgs_fst] at ho
    obtain ⟨i, _, rfl⟩ := List.mem_map.mp ho
    unfold cleanImg at hkv
    split at hkv <;>
      simpa using List.of_mem_filter hkv
  · intro img h
    unfold cleanImg
    rw [h]
    simp only [Bool.false_eq_true, if_false]
    constructor
    · unfold attrGet
      rw [find?_filter_eq _ _ _ (fun kv hkv => by simp at hkv ⊢; exact Or.inl hkv)]
    · trivial
  · intro imgs
    induction imgs with
    | nil => rfl
    | cons i rest ih =>
      simp only [cleanImgs, ih, List.filterMap_cons]
      cases (cleanImg i).2 <;> simp

/-- C10, witness: a non-assets image keeps its `src` and is not recorded. -/
theorem C10_img_attribute_witness :
    attrGet srcKey (cleanImg ⟨[(srcKey, "x.png".toList),
        ("width".toList, "5".toList)]⟩).1.attrs = "x.png".toList ∧
    (cleanImg ⟨[(srcKey, "x.png".toList), ("width".toList, "5".toList)]⟩).2 = none := by
  have h := C10_img_attribute_invariant.2.1
    ⟨[(srcKey, "x.png".toList), ("width".toList, "5".toList)]⟩ rfl
  exact ⟨h.1.trans rfl, h.2⟩

theorem getLast_space_ne_semi {rest : List Char} {w : Char}
    (hw : (rest.takeWhile isSpaceChar).getLast? = some w) : w ≠ ';' := by
  obtain ⟨hne, hx⟩ := List.mem_getLast?_eq_getLast (Option.mem_def.mpr hw)
  subst hx
  have hsp := List.mem_takeWhile_imp (List.getLast_mem hne)
  intro heq
  rw [heq] at hsp
  exact absurd hsp (by decide)

theorem propValue_no_semi (rest v : List Char) (h : propValue rest = some v) :
    v ≠ [] ∧ ∀ c ∈ v, c ≠ ';' := by
  unfold propValue at h
  split at h
  next c t _ =>
    split at h
    next =>
      split at h
      next w hw =>
        cases h
        exact ⟨by simp, fun x hx => by
          rw [List.mem_singleton] at hx
          subst hx
          exact getLast_space_ne_semi hw⟩
      next => exact absurd h (by simp)
    next hc =>
      cases h
      have hct : (c != ';') = true := by simpa using hc
      constructor
      · rw [List.takeWhile_cons, if_pos hct]
        simp
      · intro x hx
        simpa using List.mem_takeWhile_imp hx
  next =>
    split at h
    next w hw =>
      cases h
      exact ⟨by simp, fun x hx => by
        rw [List.mem_singleton] at hx
        subst hx
        exact getLast_space_ne_semi hw⟩
    next => exact absurd h (by simp)

theorem searchProp_no_semi (needle s v : List Char) (h : searchProp needle s = some v) :
    v ≠ [] ∧ ∀ c ∈ v, c ≠ ';' := by
  induction s with
  | nil => exact absurd h (by simp [searchProp])
  | cons c rest ih =>
    unfold searchProp at h
    split at h
    · split at h
      next hv => cases h; exact propValue_no_semi _ _ hv
      next => exact ih h
    · exact ih h

theorem splitSemi_cons (c : Char) (rest : List Char) :
    splitSemi (c :: rest) =
      if c = ';' then [] :: splitSemi rest
      else
        match splitSemi rest with
        | h :: t => (c :: h) :: t
        | [] => [[c]] := rfl

theorem splitSemi_ne_nil (s : List Char) : splitSemi s ≠ [] := by
  induction s with
  | nil => simp [splitSemi]
  | cons c rest ih =>
    unfold splitSemi
    split
    · simp
    · split <;> simp

theorem splitSemi_append_nosemi (a b : List Char) (h : ∀ c ∈ a, c ≠ ';') :
    splitSemi (a ++ b) = List.modifyHead (fun x => a ++ x) (splitSemi b) := by
  induction a with
  | nil =>
    obtain ⟨p, ps, hps⟩ := List.exists_cons_of_ne_nil (splitSemi_ne_nil b)
    rw [List.nil_append, hps, List.modifyHead_cons, List.nil_append]
  | cons c a' ih =>
    have hc : ¬ c = ';' := h c (by simp)
    have h' : ∀ x ∈ a', x ≠ ';' := fun x hx => h x (by simp [hx])
    rw [List.cons_append, splitSemi_cons, if_neg hc, ih h']
    obtain ⟨p, ps, hps⟩ := List.exists_cons_of_ne_nil (splitSemi_ne_nil b)
    rw [hps, List.modifyHead_cons, List.modifyHead_cons, List.cons_append]

theorem splitSemi_nosemi (a : List Char) (h : ∀ c ∈ a, c ≠ ';') : splitSemi a = [a] := by
  have hh := splitSemi_append_nosemi a [] h
  simpa [splitSemi] using hh

theorem splitSemi_joinSep (p : List Char) (ps : List (List Char))
    (hp : ∀ c ∈ p, c ≠ ';') (hps : ∀ q ∈ ps, ∀ c ∈ q, c ≠ ';') :
    splitSemi (joinSep "; ".toList (p :: ps)) = p :: ps.map (fun q => ' ' :: q) := by
  induction ps generalizing p with
  | nil => simp [joinSep, splitSemi_nosemi p hp]
  | cons q rest ih =>
    have hq : ∀ c ∈ q, c ≠ ';' := hps q (by simp)
    have hrest : ∀ r ∈ rest, ∀ c ∈ r, c ≠ ';' := fun r hr => hps r (by simp [hr])
    show splitSemi ((p ++ "; ".toList) ++ joinSep "; ".toList (q :: rest)) = _
    rw [List.append_assoc, splitSemi_append_nosemi p _ hp]
    have h1 : splitSemi ("; ".toList ++ joinSep "; ".toList (q :: rest)) =
        [] :: splitSemi (' ' :: joinSep "; ".toList (q :: rest)) := by
      show splitSemi (';' :: ' ' :: joinSep "; ".toList (q :: rest)) = _
      rw [splitSemi_cons, if_pos rfl]
    have h2 : splitSemi (' ' :: joinSep "; ".toList (q :: rest)) =
        List.modifyHead (fun x => [' '] ++ x) (splitSemi (joinSep "; ".toList (q :: rest))) :=
      splitSemi_append_nosemi [' '] _ (by decide)
    rw [h1, h2, ih q hq hrest, List.modifyHead_cons, List.modifyHead_cons]
    simp

theorem takeWhile_stop_at {α : Type} (p : α → Bool) (a : List α) (b : α) (rest : List α)
    (ha : ∀ c ∈ a, p c = true) (hb : p b = false) :
    (a ++ b :: rest).takeWhile p = a := by
  induction a with
  | nil => simp [List.takeWhile_cons, hb]
  | cons c a' ih =>
    have hc := ha c (by simp)
    simp [List.takeWhile_cons, hc, ih (fun x hx => ha x (by simp [hx]))]

theorem pyStrip_cons_space (s : List Char) : pyStrip (' ' :: s) = pyStrip s := by
  unfold pyStrip
  rw [List.dropWhile_cons, if_pos (by decide)]

theorem takeWhile_colon_textAlign (v : List Char) :
    ("text-align: ".toList ++ v).takeWhile (fun x => x != ':') = "text-align".toList := by
  have h : "text-align: ".toList ++ v = "text-align".toList ++ ':' :: (' ' :: v) := rfl
  rw [h]
  exact takeWhile_stop_at _ _ _ _ (by decide) (by decide)

theorem takeWhile_colon_textIndent (v : List Char) :
    ("text-indent: ".toList ++ v).takeWhile (fun x => x != ':') = "text-indent".toList := by
  have h : "text-indent: ".toList ++ v = "text-indent".toList ++ ':' :: (' ' :: v) := rfl
  rw [h]
  exact takeWhile_stop_at _ _ _ _ (by decide) (by decide)

theorem nameFn_ta (w : List Char) :
    declName1 ("text-align: ".toList ++ w) = some ("text-align".toList) := by
  unfold declName1
  rw [takeWhile_colon_textAlign]
  decide

theorem nameFn_ti (w : List Char) :
    declName1 ("text-indent: ".toList ++ w) = some ("text-indent".toList) := by
  unfold declName1
  rw [takeWhile_colon_textIndent]
  decide

theorem nameFn_fw : declName1 ("font-weight: bold".toList) = some ("font-weight".toList) := by
  decide

theorem nameFn_space (d : List Char) : declName1 (' ' :: d) = declName1 d := by
  unfold declName1
  have hsp : ((' ' != ':') = true) := by decide
  rw [List.takeWhile_cons, if_pos hsp, pyStrip_cons_space]

theorem normalizeParaStyle_eq_some (st v : List Char)
    (h : normalizeParaStyle st = some v) :
    ∃ p ps, styleParts st = p :: ps ∧ v = joinSep "; ".toList (p :: ps) := by
  unfold normalizeParaStyle at h
  split at h
  next => exact absurd h (by simp)
  next p ps heq =>
    refine ⟨p, ps, heq, ?_⟩
    injection h with h'
    exact h'.symm

theorem fw_ne_ta (w : List Char) :
    "font-weight: bold".toList ≠ "text-align: ".toList ++ w := by
  intro h
  have h0 : some 'f' = some 't' := congrArg List.head? h
  injection h0 with h1
  exact absurd h1 (by decide)

theorem fw_ne_ti (w : List Char) :
    "font-weight: bold".toList ≠ "text-indent: ".toList ++ w := by
  intro h
  have h0 : some 'f' = some 't' := congrArg List.head? h
  injection h0 with h1
  exact absurd h1 (by decide)

theorem styleParts_shape (st x : List Char) (hx : x ∈ styleParts st) :
    (∃ v, x = "text-align: ".toList ++ v ∧ ∀ c ∈ v, c ≠ ';') ∨
    x = "font-weight: bold".toList ∨
    (∃ v, x = "text-indent: ".toList ++ v ∧ ∀ c ∈ v, c ≠ ';') := by
  unfold styleParts at hx
  rcases List.mem_append.mp hx with h12 | h3
  · rcases List.mem_append.mp h12 with h1 | h2
    · left
      split at h1
      · split at h1
        next v hv =>
          rw [List.mem_singleton] at h1
          exact ⟨v, h1, (searchProp_no_semi _ _ _ hv).2⟩
        next => simp at h1
      · simp at h1
    · right; left
      split at h2
      · simpa using h2
      · simp at h2
  · right; right
    split at h3
    · split at h3
      next v hv =>
        rw [List.mem_singleton] at h3
        exact ⟨v, h3, (searchProp_no_semi _ _ _ hv).2⟩
      next => simp at h3
    · simp at h3

/-- C5: the Style Normalizer's output for a paragraph only ever carries the
properties `text-align`, `font-weight`, `text-indent`; `font-weight: bold` is
added exactly when the original style contains both the substring
`'font-weight'` and the substring `'bold'`; when nothing survives the style
attribute is removed (`none`), and a produced attribute is never the empty
string; every heading in the output carries exactly the fixed
`"text-align: center; font-weight: bold;"` declaration; and every paragraph
is rewritten through the allowlist normalizer. -/
theorem C5_style_normalizer :
    (∀ st v, normalizeParaStyle st = some v → ∀ n ∈ declNames v,
      n = "text-align".toList ∨ n = "font-weight".toList ∨ n = "text-indent".toList) ∧
    (∀ st, "font-weight: bold".toList ∈ styleParts st ↔
      (isSubstr "font-weight".toList st = true ∧ isSubstr "bold".toList st = true)) ∧
    (∀ st, styleParts st = [] → normalizeParaStyle st = none) ∧
    (∀ st v, normalizeParaStyle st = some v → v ≠ []) ∧
    (∀ (es : List FmtElem) (l : Nat) (stl : Option (List Char)),
      FmtElem.heading l stl ∈ preserveFormatting es → stl = some headingStyleFixed) ∧
    (∀ (es : List FmtElem) (stl : Option (List Char)), FmtElem.para stl ∈ es →
      FmtElem.para (normalizeParaStyle (stl.getD [])) ∈ preserveFormatting es) := by
  refine ⟨?_, ?_, ?_, ?_, ?_, ?_⟩
  · intro st v hv n hn
    obtain ⟨p, ps, hsp, rfl⟩ := normalizeParaStyle_eq_some st v hv
    have hno : ∀ x ∈ p :: ps, ∀ c ∈ x, c ≠ ';' := by
      intro x hxm c hc
      rcases styleParts_shape st x (hsp ▸ hxm) with ⟨w, rfl, hw⟩ | rfl | ⟨w, rfl, hw⟩
      · rcases List.mem_append.mp hc with hc1 | hc1
        · intro hcq; subst hcq; revert hc1; decide
        · exact hw c hc1
      · intro hcq; subst hcq; revert hc; decide
      · rcases List.mem_append.mp hc with hc1 | hc1
        · intro hcq; subst hcq; revert hc1; decide
        · exact hw c hc1
    unfold declNames at hn
    rw [splitSemi_joinSep p ps (hno p (by simp)) (fun q hq => hno q (by simp [hq]))] at hn
    obtain ⟨d, hd, hfd⟩ := List.mem_filterMap.mp hn
    rcases List.mem_cons.mp hd with rfl | hd'
    · rcases styleParts_shape st d (by rw [hsp]; exact List.mem_cons_self _ _) with
        ⟨w, hw, _⟩ | hw | ⟨w, hw, _⟩
      · rw [hw, nameFn_ta] at hfd
        injection hfd with h
        exact Or.inl h.symm
      · rw [hw, nameFn_fw] at hfd
        injection hfd with h
        exact Or.inr (Or.inl h.symm)
      · rw [hw, nameFn_ti] at hfd
        injection hfd with h
        exact Or.inr (Or.inr h.symm)
    · obtain ⟨q, hqmem, rfl⟩ := List.mem_map.mp hd'
      rw [nameFn_space] at hfd
      rcases styleParts_shape st q (by rw [hsp]; exact List.mem_cons_of_mem _ hqmem) with
        ⟨w, hw, _⟩ | hw | ⟨w, hw, _⟩
      · rw [hw, nameFn_ta] at hfd
        injection hfd with h
        exact Or.inl h.symm
      · rw [hw, nameFn_fw] at hfd
        injection hfd with h
        exact Or.inr (Or.inl h.symm)
      · rw [hw, nameFn_ti] at hfd
        injection hfd with h
        exact Or.inr (Or.inr h.symm)
  · intro st
    constructor
    · intro h
      unfold styleParts at h
      rcases List.mem_append.mp h with h12 | h3
      · rcases List.mem_append.mp h12 with h1 | h2
        · exfalso
          split at h1
          · split at h1
            next v hv =>
              rw [List.mem_singleton] at h1
              exact fw_ne_ta v h1
            next => simp at h1
          · simp at h1
        · split at h2
          next hcond => simpa using hcond
          next => simp at h2
      · exfalso
        split at h3
        · split at h3
          next v hv =>
            rw [List.mem_singleton] at h3
            exact fw_ne_ti v h3
          next => simp at h3
        · simp at h3
    · rintro ⟨h1, h2⟩
      have hc : (isSubstr "font-weight".toList st && isSubstr "bold".toList st) = true := by
        simp only [Bool.and_eq_true]
        exact ⟨h1, h2⟩
      simp [styleParts, hc]
      exact Or.inr (Or.inl ⟨h1, h2⟩)
  · intro st h
    unfold normalizeParaStyle
    rw [h]
  · intro st v hv
    obtain ⟨p, ps, hsp, rfl⟩ := normalizeParaStyle_eq_some st v hv
    have hpne : p ≠ [] := by
      rcases styleParts_shape st p (by rw [hsp]; exact List.mem_cons_self _ _) with
        ⟨w, rfl, _⟩ | rfl | ⟨w, rfl, _⟩ <;> simp
    cases ps with
    | nil => simpa [joinSep] using hpne
    | cons q rest =>
      intro hj
      have hjs : joinSep "; ".toList (p :: q :: rest) =
          (p ++ "; ".toList) ++ joinSep "; ".toList (q :: rest) := rfl
      rw [hjs] at hj
      simp [List.append_eq_nil] at hj
  · intro es l stl h
    unfold preserveFormatting at h
    obtain ⟨e, _, he⟩ := List.mem_map.mp h
    cases e with
    | para s =>
      dsimp only at he
      exact absurd he (by simp)
    | heading lp sp =>
      dsimp only at he
      injection he with h1 h2
      exact h2.symm
    | otherElem =>
      dsimp only at he
      exact absurd he (by simp)
  · intro es stl h
    unfold preserveFormatting
    exact List.mem_map_of_mem _ h

/-- C5, witness: on `"text-align:left; font-weight: bold"` the bold part is
added, via the theorem's exactly-when direction. -/
theorem C5_style_witness :
    "font-weight: bold".toList ∈ styleParts "text-align:left; font-weight: bold".toList :=
  (C5_style_normalizer.2.1 "text-align:left; font-weight: bold".toList).mpr
    ⟨by decide, by decide⟩

theorem cleanImgs_snd (imgs : List ImgTag) :
    (cleanImgs imgs).2 = imgs.filterMap (fun i => (cleanImg i).2) := by
  induction imgs with
  | nil => rfl
  | cons i rest ih =>
    simp only [cleanImgs, ih, List.filterMap_cons]
    cases (cleanImg i).2 <;> simp

theorem isPrefixOf_append_self (a b : List Char) : a.isPrefixOf (a ++ b) = true := by
  induction a with
  | nil => simp [List.isPrefixOf]
  | cons c rest ih => simpa [List.isPrefixOf] using ih

theorem pyBasename_no_slash (p : List Char) : ∀ c ∈ pyBasename p, c ≠ '/' := by
  intro c hc
  unfold pyBasename at hc
  rw [List.mem_reverse] at hc
  simpa using List.mem_takeWhile_imp hc

theorem images_ne_basename (name p : List Char) :
    ("images/".toList ++ name) ≠ pyBasename p := by
  intro h
  have hmem : '/' ∈ pyBasename p := by
    rw [← h]
    exact List.mem_append.mpr (Or.inl (by decide))
  exact pyBasename_no_slash p '/' hmem rfl

theorem pyBasename_assets (name : List Char) (h : ∀ c ∈ name, c ≠ '/') :
    pyBasename ("./assets/".toList ++ name) = name := by
  unfold pyBasename
  rw [List.reverse_append]
  rw [show ("./assets/".toList.reverse) = '/' :: ['s', 't', 'e', 's', 's', 'a', '/', '.'] from rfl]
  rw [takeWhile_stop_at _ _ _ _
    (fun c hc => by simpa using h c (List.mem_reverse.mp hc)) (by decide)]
  exact List.reverse_reverse name

theorem find?_map_update (k v : List Char) (a : List (List Char × List Char))
    (hany : a.any (fun kv => kv.1 == k) = true) :
    (a.map (fun kv => if kv.1 == k then (k, v) else kv)).find?
      (fun kv => kv.1 == k) = some (k, v) := by
  induction a with
  | nil => simp at hany
  | cons kv rest ih =>
    by_cases hk : (kv.1 == k) = true
    · simp only [List.map_cons]
      rw [if_pos hk, List.find?_cons_of_pos _ (by simp)]
    · have hrest : rest.any (fun kv => kv.1 == k) = true := by
        simpa [List.any_cons, hk] using hany
      simp only [List.map_cons]
      rw [if_neg hk, List.find?_cons_of_neg _ (by simpa using hk), ih hrest]

theorem find?_append_right_of_none {α : Type} (p : α → Bool) (a b : List α)
    (h : ∀ x ∈ a, p x = false) : (a ++ b).find? p = b.find? p := by
  induction a with
  | nil => rfl
  | cons x rest ih =>
    rw [List.cons_append, List.find?_cons_of_neg _ (by simp [h x (by simp)]),
      ih (fun y hy => h y (by simp [hy]))]

theorem attrGet_attrSet (k v : List Char) (a : List (List Char × List Char)) :
    attrGet k (attrSet k v a) = v := by
  unfold attrGet attrSet
  by_cases hany : a.any (fun kv => kv.1 == k) = true
  · rw [if_pos hany, find?_map_update k v a hany]
    simp
  · rw [if_neg hany]
    have hall : ∀ kv ∈ a, ((fun kv : List Char × List Char => kv.1 == k) kv = false) := by
      intro kv hkv
      simp only []
      cases hkk : (kv.1 == k) with
      | false => rfl
      | true => exact absurd (List.any_eq_true.mpr ⟨kv, hkv, hkk⟩) hany
    rw [find?_append_right_of_none _ a _ hall]
    simp

theorem ppi_src_stable (chId : Nat) (files : List (List Char × List Nat))
    (name : List Char) :
    ∀ (pending : List (List Char)) (imgs : List ImgTag) (j : Nat) (im : ImgTag),
    imgs.get? j = some im →
    attrGet srcKey im.attrs = "images/".toList ++ name →
    (processPendingImages chId files pending imgs).1.get? j = some im := by
  intro pending
  induction pending with
  | nil => intro imgs j im hj _; exact hj
  | cons p rest ih =>
    intro imgs j im hj hsrc
    simp only [processPendingImages]
    cases hl : lookupFile files p with
    | none => exact ih imgs j im hj hsrc
    | some bytes =>
      dsimp only
      have hcond : (attrGet srcKey im.attrs == pyBasename p) = false := by
        rw [hsrc]
        exact beq_eq_false_iff_ne.mpr (images_ne_basename name p)
      refine ih _ j im ?_ hsrc
      rw [List.get?_map, hj]
      simp [hcond]
      intro hx
      exact absurd hx (by simpa using hcond)

theorem ppi_src_rewritten (chId : Nat) (files : List (List Char × List Nat))
    (name : List Char) :
    ∀ (pending : List (List Char)) (imgs : List ImgTag) (j : Nat) (im : ImgTag),
    imgs.get? j = some im →
    attrGet srcKey im.attrs = name →
    (∃ p ∈ pending, pyBasename p = name ∧ lookupFile files p ≠ none) →
    ∃ im2, (processPendingImages chId files pending imgs).1.get? j = some im2 ∧
      attrGet srcKey im2.attrs = "images/".toList ++ name := by
  intro pending
  induction pending with
  | nil =>
    intro imgs j im _ _ hw
    obtain ⟨p, hp, _⟩ := hw
    exact absurd hp (by simp)
  | cons p rest ih =>
    intro imgs j im hj hsrc hw
    simp only [processPendingImages]
    cases hl : lookupFile files p with
    | none =>
      refine ih imgs j im hj hsrc ?_
      obtain ⟨q, hq, hqb, hqf⟩ := hw
      rcases List.mem_cons.mp hq with rfl | hq'
      · exact absurd hl hqf
      · exact ⟨q, hq', hqb, hqf⟩
    | some bytes =>
      dsimp only
      by_cases hb : pyBasename p = name
      · have hcond : (attrGet srcKey im.attrs == pyBasename p) = true := by
          rw [hsrc, hb]
          exact beq_self_eq_true _
        refine ⟨⟨attrSet srcKey ("images/".toList ++ pyBasename p) im.attrs⟩, ?_, ?_⟩
        · refine ppi_src_stable chId files name rest _ j _ ?_ ?_
          · rw [List.get?_map, hj]
            simp [hcond]
            intro hx
            exact absurd (by simpa using hcond) hx
          · rw [attrGet_attrSet, hb]
        · rw [attrGet_attrSet, hb]
      · have hcond : (attrGet srcKey im.attrs == pyBasename p) = false := by
          rw [hsrc]
          exact beq_eq_false_iff_ne.mpr (fun hx => hb hx.symm)
        refine ih _ j im ?_ hsrc ?_
        · rw [List.get?_map, hj]
          simp [hcond]
          intro hx
          exact absurd hx (by simpa using hcond)
        · obtain ⟨q, hq, hqb, hqf⟩ := hw
          rcases List.mem_cons.mp hq with rfl | hq'
          · exact absurd hqb hb
          · exact ⟨q, hq', hqb, hqf⟩

theorem ppi_resource_mem (chId : Nat) (files : List (List Char × List Nat)) :
    ∀ (pending : List (List Char)) (imgs : List ImgTag) (p : List Char)
      (bytes : List Nat),
    p ∈ pending → lookupFile files p = some bytes →
    ∃ r ∈ (processPendingImages chId files pending imgs).2,
      r.fileName = "images/".toList ++ pyBasename p ∧
      r.mediaType = mediaTypeFor (lowerStr (pyExt p)) ∧ r.content = bytes := by
  intro pending
  induction pending with
  | nil =>
    intro imgs p bytes hp _
    exact absurd hp (by simp)
  | cons q rest ih =>
    intro imgs p bytes hp hl
    simp only [processPendingImages]
    rcases List.mem_cons.mp hp with rfl | hp'
    · rw [hl]
      dsimp only
      refine ⟨⟨"image_".toList ++ (Nat.repr chId).toList ++ "_".toList ++ pyBasename p,
        "images/".toList ++ pyBasename p, mediaTypeFor (lowerStr (pyExt p)), bytes⟩,
        List.mem_cons_self _ _, rfl, rfl, rfl⟩
    · cases hlq : lookupFile files q with
      | none => exact ih imgs p bytes hp' hl
      | some bq =>
        dsimp only
        obtain ⟨r, hr, hprops⟩ := ih (imgs.map (fun im =>
            if attrGet srcKey im.attrs == pyBasename q then
              ⟨attrSet srcKey ("images/".toList ++ pyBasename q) im.attrs⟩
            else im)) p bytes hp' hl
        exact ⟨r, List.mem_cons_of_mem _ hr, hprops⟩

theorem ppi_missing (chId : Nat) (files : List (List Char × List Nat))
    (name : List Char) :
    ∀ (pending : List (List Char)) (imgs : List ImgTag) (j : Nat) (im : ImgTag),
    imgs.get? j = some im →
    attrGet srcKey im.attrs = name →
    (∀ p ∈ pending, pyBasename p = name → lookupFile files p = none) →
    (processPendingImages chId files pending imgs).1.get? j = some im ∧
    ∀ r ∈ (processPendingImages chId files pending imgs).2,
      r.fileName ≠ "images/".toList ++ name := by
  intro pending
  induction pending with
  | nil =>
    intro imgs j im hj _ _
    exact ⟨hj, by simp [processPendingImages]⟩
  | cons p rest ih =>
    intro imgs j im hj hsrc hmiss
    simp only [processPendingImages]
    cases hl : lookupFile files p with
    | none => exact ih imgs j im hj hsrc (fun q hq => hmiss q (by simp [hq]))
    | some bytes =>
      dsimp only
      have hb : pyBasename p ≠ name := by
        intro hx
        rw [hmiss p (by simp) hx] at hl
        exact absurd hl (by simp)
      have hcond : (attrGet srcKey im.attrs == pyBasename p) = false := by
        rw [hsrc]
        exact beq_eq_false_iff_ne.mpr (fun hx => hb hx.symm)
      have hrec := ih (imgs.map (fun im =>
          if attrGet srcKey im.attrs == pyBasename p then
            ⟨attrSet srcKey ("images/".toList ++ pyBasename p) im.attrs⟩
          else im)) j im (by
            rw [List.get?_map, hj]
            simp [hcond]
            intro hx
            exact absurd hx (by simpa using hcond)) hsrc
        (fun q hq => hmiss q (by simp [hq]))
      refine ⟨hrec.1, ?_⟩
      intro r hr
      rcases List.mem_cons.mp hr with rfl | hr'
      · dsimp only
        intro hx
        exact hb (List.append_cancel_left hx)
      · exact hrec.2 r hr'

theorem cleanImg_assets_src (img : ImgTag) (name : List Char)
    (hsrc : attrGet srcKey img.attrs = "./assets/".toList ++ name)
    (hns : ∀ c ∈ name, c ≠ '/') :
    attrGet srcKey (cleanImg img).1.attrs = name ∧
    (cleanImg img).2 = some ("./assets/".toList ++ name) := by
  have hpre : "./assets/".toList.isPrefixOf (attrGet srcKey img.attrs) = true := by
    rw [hsrc]
    exact isPrefixOf_append_self _ _
  unfold cleanImg
  rw [if_pos hpre]
  refine ⟨?_, by dsimp only; rw [hsrc]⟩
  dsimp only
  have h1 : attrGet srcKey
      ((attrSet srcKey (pyBasename (attrGet srcKey img.attrs)) img.attrs).filter
        (fun kv => kv.1 == srcKey || kv.1 == altKey)) =
      attrGet srcKey (attrSet srcKey (pyBasename (attrGet srcKey img.attrs)) img.attrs) := by
    unfold attrGet
    rw [find?_filter_eq _ _ _ (fun kv hkv => by simp at hkv ⊢; exact Or.inl hkv)]
  rw [h1, attrGet_attrSet, hsrc, pyBasename_assets name hns]

/-- The two colliding image references of the C6 counterexample: distinct
asset paths sharing the base filename `x.png`. -/
def imgRefNested : ImgTag := ⟨[(srcKey, "./assets/a/x.png".toList)]⟩

def imgRefFlat : ImgTag := ⟨[(srcKey, "./assets/x.png".toList)]⟩

/-- An article directory holding only the nested `a/x.png` file. -/
def dirCollide : ArticleDir := ⟨true, [("./assets/a/x.png".toList, [1, 2, 3])]⟩

/-- C6, counterexample: the document references `./assets/a/x.png` (which
exists) and `./assets/x.png` (which does not). Both rewrite to the base
filename `x.png`, so the textual `src="x.png"` → `src="images/x.png"` replace
for the existing file also retargets the reference whose file is missing: its
`src` ends up `images/x.png`, not the bare base filename the claim promises,
and a resource named `images/x.png` is embedded even though this reference's
file does not exist. -/
theorem C6_roundtrip_counterexample :
    lookupFile dirCollide.files ("./assets/x.png".toList) = none ∧
    attrGet srcKey (((imagePipeline 1 dirCollide [imgRefNested, imgRefFlat]).1.getD 1
      ⟨[]⟩).attrs) = "images/x.png".toList ∧
    "images/x.png".toList ≠ "x.png".toList ∧
    (∃ r ∈ (imagePipeline 1 dirCollide [imgRefNested, imgRefFlat]).2,
      r.fileName = "images/x.png".toList) := by
  decide

/-- C6, amended: for an image reference `<img src="./assets/x.png">` at
position `j` of the document: when the referenced file exists (and the assets
directory with it), the final chapter image carries `src="images/x.png"` and
the book embeds a resource `images/x.png` of media type `image/png` whose
bytes equal the file's; when the file does not exist AND no other reference
whose base filename is also `x.png` resolves to an existing file, the `src`
remains the bare base filename and no resource named `images/x.png` is
embedded. (Without the no-collision proviso the bare-src half fails, as the
counterexample shows.) -/
theorem C6_image_roundtrip_amended : ∀ (chId : Nat) (d : ArticleDir)
    (raws : List ImgTag) (j : Nat) (img : ImgTag) (name : List Char),
    raws.get? j = some img →
    attrGet srcKey img.attrs = "./assets/".toList ++ name →
    (∀ c ∈ name, c ≠ '/') →
    ((∀ bytes, lookupFile d.files ("./assets/".toList ++ name) = some bytes →
      d.assetsDirExists = true →
      lowerStr (pyExt ("./assets/".toList ++ name)) = ".png".toList →
      (∃ im2, (imagePipeline chId d raws).1.get? j = some im2 ∧
        attrGet srcKey im2.attrs = "images/".toList ++ name) ∧
      (∃ r ∈ (imagePipeline chId d raws).2, r.fileName = "images/".toList ++ name ∧
        r.mediaType = "image/png".toList ∧ r.content = bytes)) ∧
     (lookupFile d.files ("./assets/".toList ++ name) = none →
      (∀ p ∈ (cleanImgs raws).2, pyBasename p = name → lookupFile d.files p = none) →
      (∃ im2, (imagePipeline chId d raws).1.get? j = some im2 ∧
        attrGet srcKey im2.attrs = name) ∧
      (∀ r ∈ (imagePipeline chId d raws).2, r.fileName ≠ "images/".toList ++ name))) := by
  intro chId d raws j img name hj hsrc hns
  have hclean := cleanImg_assets_src img name hsrc hns
  have hcj : (cleanImgs raws).1.get? j = some (cleanImg img).1 := by
    rw [cleanImgs_fst, List.get?_map, hj]
    rfl
  have hpend : ("./assets/".toList ++ name) ∈ (cleanImgs raws).2 := by
    rw [cleanImgs_snd]
    exact List.mem_filterMap.mpr ⟨img, List.get?_mem hj, hclean.2⟩
  constructor
  · intro bytes hlk hdir hext
    have hpipe : imagePipeline chId d raws =
        processPendingImages chId d.files (cleanImgs raws).2 (cleanImgs raws).1 := by
      simp [imagePipeline, processChapterImages, hdir]
    rw [hpipe]
    constructor
    · exact ppi_src_rewritten chId d.files name _ _ j _ hcj hclean.1
        ⟨_, hpend, pyBasename_assets name hns, by rw [hlk]; simp⟩
    · obtain ⟨r, hr, h1, h2, h3⟩ := ppi_resource_mem chId d.files (cleanImgs raws).2
        (cleanImgs raws).1 _ bytes hpend hlk
      refine ⟨r, hr, ?_, ?_, h3⟩
      · rw [h1, pyBasename_assets name hns]
      · rw [h2, hext]
        decide
  · intro hlk hother
    cases hdir : d.assetsDirExists with
    | false =>
      have hpipe : imagePipeline chId d raws = ((cleanImgs raws).1, []) := by
        simp [imagePipeline, processChapterImages, hdir]
      rw [hpipe]
      exact ⟨⟨(cleanImg img).1, hcj, hclean.1⟩, by simp⟩
    | true =>
      have hpipe : imagePipeline chId d raws =
          processPendingImages chId d.files (cleanImgs raws).2 (cleanImgs raws).1 := by
        simp [imagePipeline, processChapterImages, hdir]
      rw [hpipe]
      have h := ppi_missing chId d.files name (cleanImgs raws).2 (cleanImgs raws).1 j
        (cleanImg img).1 hcj hclean.1 hother
      exact ⟨⟨(cleanImg img).1, h.1, hclean.1⟩, h.2⟩

/-- A well-formed single-reference article for the C6 witness. -/
def imgRefGood : ImgTag := ⟨[(srcKey, "./assets/x.png".toList), ("width".toList, "3".toList)]⟩

def dirGood : ArticleDir := ⟨true, [("./assets/x.png".toList, [9, 8])]⟩

/-- C6, witness: the amended theorem's existing-file half at a concrete
single-image article. -/
theorem C6_image_roundtrip_witness :
    (∃ im2, (imagePipeline 1 dirGood [imgRefGood]).1.get? 0 = some im2 ∧
      attrGet srcKey im2.attrs = "images/".toList ++ "x.png".toList) ∧
    (∃ r ∈ (imagePipeline 1 dirGood [imgRefGood]).2,
      r.fileName = "images/".toList ++ "x.png".toList ∧
      r.mediaType = "image/png".toList ∧ r.content = [9, 8]) :=
  (C6_image_roundtrip_amended 1 dirGood [imgRefGood] 0 imgRefGood ("x.png".toList)
    rfl (by decide) (by decide)).1 [9, 8] (by decide) rfl (by decide)
